import Mathlib

/-!
Verification development for the MusicXML→Tenuto converter
(`src/MusicXMLToTenuto/MusicXMLToTenuto.py`).

The Python program is shallowly embedded: each method becomes a Lean
function over explicit data.  XML subtrees are flattened into records
holding exactly the fields the program reads; mutable object state
(`TenutoState`, `divisions_per_quarter`, `pivot_data`, `parts_info`) is
threaded explicitly.  Python `float` division on integer tick counts is
modelled with `ℚ` (all table constants are exactly representable, and
tick counts / divisions are integers).  Python `dict`s (which preserve
insertion order) are modelled as association lists whose `setKey`
replaces in place or appends at the end.
-/

/-- `TenutoState`: the per-voice sticky-state context
(`last_duration`, `last_octave`), both initialized to `None`. -/
structure TenutoState where
  last_duration : Option String
  last_octave : Option String
deriving DecidableEq, Repr

/-- The `<pitch>` child of a note: `step`, optional `alter`, `octave`,
as the texts the program reads (`get_text`). -/
structure Pitch where
  step : String
  alter : Option String
  octave : String
deriving DecidableEq, Repr

/-- A `<note>` element, flattened to the fields `parse_logic` reads:
presence of a `<chord/>` child, the optional `<pitch>` (absent for
rests), the optional integer `<duration>` text, the articulation
children of `<notations><articulations>`, and the `type` attribute of a
`<slur>` child of `<notations>` when one exists. -/
structure Note where
  chord : Bool
  pitch : Option Pitch
  duration : Option Int
  staccato : Bool
  accent : Bool
  tenuto : Bool
  slur : Option String
deriving DecidableEq, Repr

/-- A plain (non-chord, unornamented) note, used to build inputs. -/
def plainNote (p : Option Pitch) (d : Option Int) : Note :=
  { chord := false, pitch := p, duration := d,
    staccato := false, accent := false, tenuto := false, slur := none }

/-- A chord-member note (carries an explicit `<chord/>` child). -/
def chordNote (p : Option Pitch) (d : Option Int) : Note :=
  { plainNote p d with chord := true }

/-- `calculate_tenuto_duration`: quantize a tick count against the
current global `divisions_per_quarter` scale.  `None` ticks and a zero
scale (Python catches `ZeroDivisionError`) fall back to `":4"`; the
quotient is matched against the fixed table in source order, any other
value falls back to `":4"`. -/
def calculate_tenuto_duration (divisions : Int) (duration_ticks : Option Int) : String :=
  match duration_ticks with
  | none => ":4"
  | some t =>
    if divisions = 0 then ":4"
    else
      let quarters : ℚ := (t : ℚ) / (divisions : ℚ)
      if quarters = 4 then ":1"
      else if quarters = 3 then ":2."
      else if quarters = 2 then ":2"
      else if quarters = 3/2 then ":4."
      else if quarters = 1 then ":4"
      else if quarters = 3/4 then ":8."
      else if quarters = 1/2 then ":8"
      else if quarters = 3/8 then ":16."
      else if quarters = 1/4 then ":16"
      else if quarters = 1/8 then ":32"
      else ":4"

/-- The accidental string `acc` computed inside `parse_pitch` from the
`<alter>` text. -/
def accidental (alter : Option String) : String :=
  if alter = some "1" then "#"
  else if alter = some "-1" then "b"
  else if alter = some "2" then "x"
  else if alter = some "-2" then "bb"
  else ""

/-- Python `str.lower()`, modelled character-wise (Lean's own
`String.toLower` is equal but does not reduce in the kernel). -/
def lower_str (s : String) : String := String.mk (s.data.map Char.toLower)

/-- `parse_pitch`: render a note's pitch token and apply sticky-octave
inference.  A pitchless note (a rest) yields `"r"` and leaves the state
untouched; otherwise the octave is appended, and the context updated,
exactly when it differs from `last_octave`. -/
def parse_pitch (note : Note) (state : TenutoState) : String × TenutoState :=
  match note.pitch with
  | none => ("r", state)
  | some p =>
    let token := lower_str p.step ++ accidental p.alter
    if state.last_octave = some p.octave then
      (token, state)
    else
      (token ++ p.octave, { state with last_octave := some p.octave })

/-- The list comprehension `[self.parse_pitch(n, state) for n in chord_stack]`:
renders each pitch in order, threading the voice context. -/
def parse_pitches (state : TenutoState) : List Note → List String × TenutoState
  | [] => ([], state)
  | n :: ns =>
    let r1 := parse_pitch n state
    let r2 := parse_pitches r1.2 ns
    (r1.1 :: r2.1, r2.2)

/-- The notations/articulations block of `parse_logic`, applied to the
cluster-head note: `.stacc`, `.acc`, `.ten` flags and `.legato` for a
slur whose `type` is `"start"`. -/
def articulation_suffix (n : Note) : String :=
  (if n.staccato then ".stacc" else "") ++
  (if n.accent then ".acc" else "") ++
  (if n.tenuto then ".ten" else "") ++
  (if n.slur = some "start" then ".legato" else "")

/-- The token-generation stage of the `parse_logic` loop body: a
single-member cluster renders as its pitch token; a multi-member
cluster renders each member's pitch in cluster order (threading the
voice context), drops any rest markers, and joins the remainder into
one bracketed token. -/
def cluster_pitch (state : TenutoState) (n : Note) (chord_tail : List Note) :
    String × TenutoState :=
  if chord_tail.isEmpty then parse_pitch n state
  else
    let pr := parse_pitches state (n :: chord_tail)
    ("[" ++ String.intercalate " " (pr.1.filter (fun p => p ≠ "r")) ++ "]", pr.2)

/-- One iteration of the `parse_logic` note loop body, split out for
reuse: given the cluster head `n` and its chord tail, produce the
event's token and the updated voice context.  The duration is taken
from the head note only; the duration suffix is appended (and the
context updated) only when it differs from `last_duration`;
articulations come from the head note. -/
def dur_stage (divisions : Int) (state : TenutoState) (n : Note) (chord_tail : List Note) :
    String × TenutoState :=
  let ten_dur := calculate_tenuto_duration divisions n.duration
  let r1 := cluster_pitch state n chord_tail
  if r1.2.last_duration = some ten_dur then r1
  else (r1.1 ++ ten_dur, { r1.2 with last_duration := some ten_dur })

def event_token (divisions : Int) (state : TenutoState) (n : Note) (chord_tail : List Note) :
    String × TenutoState :=
  let r2 := dur_stage divisions state n chord_tail
  (r2.1 ++ articulation_suffix n, r2.2)

/-- The `while i < len(notes)` loop of `parse_logic`: chord lookahead
collects the maximal run of immediately following `<chord/>`-marked
notes, one token is emitted per cluster, and the cursor jumps past the
whole cluster (`i = j`). -/
def process_notes (divisions : Int) (state : TenutoState) : List Note → List String × TenutoState
  | [] => ([], state)
  | n :: rest =>
    let chord_tail := rest.takeWhile (fun m => m.chord)
    let rest2 := rest.dropWhile (fun m => m.chord)
    let r := event_token divisions state n chord_tail
    let rs := process_notes divisions r.2 rest2
    (r.1 :: rs.1, rs.2)
termination_by l => l.length
decreasing_by
  simp only [List.length_cons]
  exact Nat.lt_succ_of_le (List.Sublist.length_le (List.dropWhile_sublist _))

/-- The `<time>` child of an `<attributes>` block: `beats` and
`beat-type` texts (either may be absent). -/
structure TimeSig where
  beats : Option String
  beat_type : Option String
deriving DecidableEq, Repr

/-- An `<attributes>` block, flattened to the fields
`process_attributes` reads. -/
structure Attrs where
  divisions : Option Int
  time : Option TimeSig
deriving DecidableEq, Repr

/-- A `<measure>` element: optional `<attributes>` child plus the list
of its `<note>` children (the only children `parse_logic` reads). -/
structure Measure where
  attributes : Option Attrs
  notes : List Note
deriving DecidableEq, Repr

/-- Python string interpolation of a possibly-`None` value
(`f"{x}"` renders `None` as `"None"`). -/
def optText (s : Option String) : String :=
  match s with
  | none => "None"
  | some t => t

/-- `process_attributes`: returns the measure's meta-change strings and
the (possibly updated) global `divisions_per_quarter` value. -/
def process_attributes (divisions : Int) (m : Measure) : List String × Int :=
  match m.attributes with
  | none => ([], divisions)
  | some a =>
    let d2 := match a.divisions with
      | some v => v
      | none => divisions
    let changes := match a.time with
      | some ts => ["time: " ++ optText ts.beats ++ "/" ++ optText ts.beat_type]
      | none => []
    (changes, d2)

/-- Ordered-dictionary assignment `d[k] = v`: replace in place when the
key exists, append otherwise (Python dicts preserve insertion order). -/
def setKey {α β : Type} [DecidableEq α] (k : α) (v : β) : List (α × β) → List (α × β)
  | [] => [(k, v)]
  | (k', v') :: rest => if k' = k then (k, v) :: rest else (k', v') :: setKey k v rest

/-- Ordered-dictionary lookup (`k in d` / `d[k]`). -/
def getKey {α β : Type} [DecidableEq α] (k : α) : List (α × β) → Option β
  | [] => none
  | (k', v') :: rest => if k' = k then some v' else getKey k rest

/-- The inner map of one measure of the pivot table: rendering id (or
the `"__meta__"` sentinel) to token list. -/
abbrev MeasureData := List (String × List String)

/-- `pivot_data`: measure index to `MeasureData`, as a
`defaultdict`-backed insertion-ordered map. -/
abbrev Pivot := List (Nat × MeasureData)

/-- `self.pivot_data[m][key] = v` (the defaultdict materializes the
measure entry on first touch). -/
def pivotSet : Pivot → Nat → String → List String → Pivot
  | [], m, k, v => [(m, [(k, v)])]
  | (m', data) :: rest, m, k, v =>
    if m' = m then (m', setKey k v data) :: rest
    else (m', data) :: pivotSet rest m k v

/-- One entry of `parts_info`: the generated rendering identifier, the
display name, and the voice's sticky-state context. -/
structure PartInfo where
  tenuto_id : String
  name : String
  state : TenutoState
deriving DecidableEq, Repr

/-- A `<score-part>` header entry: `id` attribute and optional
`part-name` text. -/
structure ScorePart where
  id : String
  part_name : Option String
deriving DecidableEq, Repr

/-- The sanitization step of `parse_structure`:
`"".join([c for c in name.lower() if c.isalnum()])[:4]`, with the
`"inst"` fallback for an empty result. -/
def sanitize_slug (name : String) : String :=
  let s := String.mk (((lower_str name).data.filter Char.isAlphanum).take 4)
  if s = "" then "inst" else s

/-- The collision-resolution loop of `parse_structure`, fueled: try
`base`, then `base1`, `base2`, … until a candidate is free.  The fuel
`taken.length + 1` supplied by `fresh_slug` is always sufficient
(`fresh_slug_not_taken` below), so the out-of-fuel branch is
unreachable. -/
def fresh_slug_aux (taken : List String) (base : String) : Nat → Nat → String
  | _, 0 => base
  | count, fuel+1 =>
    let s := base ++ Nat.repr count
    if s ∈ taken then fresh_slug_aux taken base (count+1) fuel else s

/-- The `while any(p['tenuto_id'] == slug ...)` loop of
`parse_structure`. -/
def fresh_slug (taken : List String) (base : String) : String :=
  if base ∈ taken then fresh_slug_aux taken base 1 (taken.length + 1) else base

/-- The loop body of `parse_structure`'s part-list scan: register one
`<score-part>`, generating a collision-free rendering identifier
(`part-name` defaults to `"Instrument"`). -/
def register_part (acc : List (String × PartInfo)) (sp : ScorePart) :
    List (String × PartInfo) :=
  let name := sp.part_name.getD "Instrument"
  let slug := fresh_slug (acc.map (fun q => q.2.tenuto_id)) (sanitize_slug name)
  setKey sp.id { tenuto_id := slug, name := name, state := ⟨none, none⟩ } acc

/-- `parse_structure`, restricted to the part-list scan: builds
`parts_info` from the `<score-part>` entries. -/
def parse_structure (score_parts : List ScorePart) : List (String × PartInfo) :=
  score_parts.foldl register_part []

/-- A `<part>` element of the score body: `id` attribute and measure
list. -/
structure BodyPart where
  id : String
  measures : List Measure
deriving DecidableEq, Repr

/-- The converter state threaded through `parse_logic`: the global
`divisions_per_quarter`, `parts_info` (whose per-part voice contexts
mutate), and `pivot_data`. -/
structure LogicState where
  divisions : Int
  parts : List (String × PartInfo)
  pivot : Pivot
deriving DecidableEq, Repr

/-- The body of the per-measure loop of `parse_logic`: process the
attributes (possibly updating the global scale), store `"__meta__"`
when there are meta changes, tokenize the notes, and store the token
list under the part's rendering identifier. -/
def process_measure (tid : String) (midx : Nat) (divisions : Int) (state : TenutoState)
    (pivot : Pivot) (m : Measure) : Int × TenutoState × Pivot :=
  let au := process_attributes divisions m
  let pivot1 := if au.1.isEmpty then pivot else pivotSet pivot midx "__meta__" au.1
  let nr := process_notes au.2 state m.notes
  (au.2, nr.2, pivotSet pivot1 midx tid nr.1)

/-- The measure loop of `parse_logic` for one part, with the positional
measure counter starting at `midx`. -/
def process_measures (tid : String) :
    Nat → Int → TenutoState → Pivot → List Measure → Int × TenutoState × Pivot
  | _, d, s, pv, [] => (d, s, pv)
  | midx, d, s, pv, m :: ms =>
    let r := process_measure tid midx d s pv m
    process_measures tid (midx+1) r.1 r.2.1 r.2.2 ms

/-- The body of the per-part loop of `parse_logic`: a part whose id is
not registered in `parts_info` is skipped entirely (`continue`);
otherwise its measures are processed from index 1 and the voice context
is written back. -/
def parse_part (st : LogicState) (p : BodyPart) : LogicState :=
  match getKey p.id st.parts with
  | none => st
  | some info =>
    let r := process_measures info.tenuto_id 1 st.divisions info.state st.pivot p.measures
    { divisions := r.1,
      parts := setKey p.id { info with state := r.2.1 } st.parts,
      pivot := r.2.2 }

/-- `parse_logic`: the document-order iteration over the `<part>`
elements of the score body. -/
def parse_logic (st : LogicState) (body : List BodyPart) : LogicState :=
  body.foldl parse_part st

/-- The quote escaping of `generate_tenuto`
(`v.replace('"', '\\"')`). -/
def escape_quotes (s : String) : String :=
  String.mk (s.data.flatMap (fun c => if c = '"' then ['\\', '"'] else [c]))

/-- The global-meta lines of `generate_tenuto`. -/
def meta_lines (global_meta : List (String × String)) : List String :=
  global_meta.map (fun kv => "    " ++ kv.1 ++ ": \"" ++ escape_quotes kv.2 ++ "\",")

/-- The instrument-definition lines of `generate_tenuto`, in
`parts_info` insertion order. -/
def instrument_lines (parts : List (String × PartInfo)) : List String :=
  parts.map (fun q => "  def " ++ q.2.tenuto_id ++ " \"" ++ q.2.name ++ "\" style=standard")

/-- The body of the measure loop of `generate_tenuto`: header line,
optional meta line, then one line per `parts_info` entry (in insertion
order) whose rendering id has an entry in this measure's data, closing
brace and blank line. -/
def measure_block (parts : List (String × PartInfo)) (pivot : Pivot) (midx : Nat) : List String :=
  let data := (getKey midx pivot).getD []
  let metaLine :=
    match getKey "__meta__" data with
    | some ms => ["    meta \x7b " ++ String.intercalate ", " ms ++ " \x7d"]
    | none => []
  let instLines := parts.filterMap (fun q =>
    match getKey q.2.tenuto_id data with
    | some toks => some ("    " ++ q.2.tenuto_id ++ ": " ++ String.intercalate " " toks ++ " |")
    | none => none)
  ("  measure " ++ Nat.repr midx ++ " \x7b") :: (metaLine ++ instLines ++ ["  \x7d", ""])

/-- `generate_tenuto`: assemble the output lines — fixed header, meta
block, instrument definitions, then the measure blocks for
`sorted(self.pivot_data.keys())` — and join them with newlines. -/
def generate_tenuto (global_meta : List (String × String)) (parts : List (String × PartInfo))
    (pivot : Pivot) : String :=
  let sorted_measures := List.insertionSort (· ≤ ·) (pivot.map Prod.fst)
  let lines :=
    ["tenuto \x7b", "  meta \x7b", "    tenuto_version: \"2.0\","] ++
    meta_lines global_meta ++
    ["  \x7d", "", "  %% Instrument Definitions"] ++
    instrument_lines parts ++
    ["", "  %% Score Logic"] ++
    sorted_measures.flatMap (measure_block parts pivot) ++
    ["\x7d"]
  String.intercalate "\n" lines

/-- An element of a measure's ordered child list, for the
dynamics-aware grouper: a note, an inline direction (carrying the
already-extracted lowercased dynamics symbol when it has a dynamics
child), or any other element kind (backup, forward, print, barline…). -/
inductive MeasureElem where
  | note (n : Note)
  | direction (dynamics : Option String)
  | other
deriving DecidableEq, Repr

/-- Whether an element is a chord-member note (the chord lookahead of
the dynamics-aware grouper stops at any non-note element and at any
note not marked as a chord member). -/
def isChordMember : MeasureElem → Bool
  | MeasureElem.note n => n.chord
  | _ => false

/-- The note carried by an element, when it is one. -/
def elemNote : MeasureElem → Option Note
  | MeasureElem.note n => some n
  | _ => none

/-- Modelled from the spec: the dynamics-aware Event Grouper variant
(§4.3) is not present under `src/` — the source file only contains the
simpler, note-only grouper (`parse_logic` iterates
`measure.findall('note')` and keeps no pending-modifiers buffer).
Following the spec's words: walk the measure's child elements in
document order keeping a pending-modifiers buffer; a direction with a
dynamics child appends its symbol to the buffer and emits nothing; any
other non-note element is skipped with no state effect; a note starts a
cluster whose lookahead stops at the first non-note element or
non-chord-member note; the token is built as in the simpler design
(cluster pitch rendering, head-note duration, sticky duration suffix),
then the pending suffixes are applied as `.name` suffixes and the
buffer is cleared, then the head note's articulation suffixes are
applied. -/
def process_elems (divisions : Int) (state : TenutoState) (pending : List String) :
    List MeasureElem → List String × TenutoState
  | [] => ([], state)
  | MeasureElem.direction (some d) :: rest => process_elems divisions state (pending ++ [d]) rest
  | MeasureElem.direction none :: rest => process_elems divisions state pending rest
  | MeasureElem.other :: rest => process_elems divisions state pending rest
  | MeasureElem.note n :: rest =>
    let chord_tail := (rest.takeWhile isChordMember).filterMap elemNote
    let rest2 := rest.dropWhile isChordMember
    let r2 := dur_stage divisions state n chord_tail
    let token := (pending.foldl (fun t d => t ++ "." ++ d) r2.1) ++ articulation_suffix n
    let rs := process_elems divisions r2.2 [] rest2
    (token :: rs.1, rs.2)
termination_by l => l.length
decreasing_by
  all_goals simp only [List.length_cons]
  all_goals first
  | exact Nat.lt_succ_self _
  | exact Nat.lt_succ_of_le (List.Sublist.length_le (List.dropWhile_sublist _))

/-- The pitch part of a note's token, ignoring the octave: rest marker
for a pitchless note, else case-folded step plus accidental. -/
def pitch_core (m : Note) : String :=
  match m.pitch with
  | none => "r"
  | some p => lower_str p.step ++ accidental p.alter

theorem parse_pitch_rest (n : Note) (st : TenutoState) (h : n.pitch = none) :
    parse_pitch n st = ("r", st) := by
  simp [parse_pitch, h]

theorem parse_pitch_same_octave (n : Note) (p : Pitch) (st : TenutoState)
    (h : n.pitch = some p) (ho : st.last_octave = some p.octave) :
    parse_pitch n st = (lower_str p.step ++ accidental p.alter, st) := by
  simp [parse_pitch, h, ho]

theorem parse_pitch_new_octave (n : Note) (p : Pitch) (st : TenutoState)
    (h : n.pitch = some p) (ho : st.last_octave ≠ some p.octave) :
    parse_pitch n st =
      (lower_str p.step ++ accidental p.alter ++ p.octave,
       { st with last_octave := some p.octave }) := by
  simp [parse_pitch, h, ho]

theorem parse_pitch_last_duration (n : Note) (st : TenutoState) :
    (parse_pitch n st).2.last_duration = st.last_duration := by
  unfold parse_pitch
  cases n.pitch with
  | none => rfl
  | some p =>
    by_cases ho : st.last_octave = some p.octave <;> simp [ho]

theorem parse_pitches_last_duration (ns : List Note) (st : TenutoState) :
    (parse_pitches st ns).2.last_duration = st.last_duration := by
  induction ns generalizing st with
  | nil => rfl
  | cons n ns ih =>
    simp only [parse_pitches]
    rw [ih, parse_pitch_last_duration]

/-- Once the context's octave equals `o`, a run of pitched notes all in
octave `o` renders without octave markers and leaves the context
untouched. -/
theorem parse_pitches_octave_matches (ns : List Note) (st : TenutoState) (o : String)
    (hall : ∀ m ∈ ns, ∃ p, m.pitch = some p ∧ p.octave = o)
    (ho : st.last_octave = some o) :
    parse_pitches st ns = (ns.map pitch_core, st) := by
  induction ns with
  | nil => rfl
  | cons n ns ih =>
    obtain ⟨p, hp, hpo⟩ := hall n (by simp)
    have h1 : parse_pitch n st = (pitch_core n, st) := by
      rw [parse_pitch_same_octave n p st hp (by rw [ho, hpo])]
      simp [pitch_core, hp]
    simp only [parse_pitches, h1]
    rw [ih (fun m hm => hall m (by simp [hm]))]
    simp

/-- C2: the pitch renderer returns the rest marker and leaves the
context untouched on a pitchless note; otherwise it omits the octave
(and leaves the context unchanged) exactly when it equals the context's
last-written octave, and appends it and updates the context otherwise;
consequently, across `N` consecutive pitched notes of one voice sharing
an octave the context did not already hold, only the first token
carries the octave marker and the remaining `N−1` omit it. -/
theorem parse_pitch_sticky_octave_spec :
    (∀ (n : Note) (st : TenutoState), n.pitch = none → parse_pitch n st = ("r", st)) ∧
    (∀ (n : Note) (p : Pitch) (st : TenutoState), n.pitch = some p →
      st.last_octave = some p.octave →
      parse_pitch n st = (lower_str p.step ++ accidental p.alter, st)) ∧
    (∀ (n : Note) (p : Pitch) (st : TenutoState), n.pitch = some p →
      st.last_octave ≠ some p.octave →
      parse_pitch n st = (lower_str p.step ++ accidental p.alter ++ p.octave,
        { st with last_octave := some p.octave })) ∧
    (∀ (st : TenutoState) (n : Note) (ns : List Note) (o : String),
      (∀ m ∈ n :: ns, ∃ p, m.pitch = some p ∧ p.octave = o) →
      st.last_octave ≠ some o →
      parse_pitches st (n :: ns) =
        ((pitch_core n ++ o) :: ns.map pitch_core, { st with last_octave := some o })) := by
  refine ⟨parse_pitch_rest, parse_pitch_same_octave, parse_pitch_new_octave, ?_⟩
  intro st n ns o hall ho
  obtain ⟨p, hp, hpo⟩ := hall n (by simp)
  have h1 : parse_pitch n st =
      (pitch_core n ++ o, { st with last_octave := some o }) := by
    rw [parse_pitch_new_octave n p st hp (by rw [hpo]; exact ho)]
    simp [pitch_core, hp, hpo]
  simp only [parse_pitches, h1]
  rw [parse_pitches_octave_matches ns _ o (fun m hm => hall m (by simp [hm])) (by simp)]

/-- Witness for C2 at a concrete input: three C-pitched notes in octave
4 starting from an empty context — only the first token carries the
octave. -/
theorem parse_pitch_sticky_octave_spec_witness :
    parse_pitches ⟨none, none⟩
      [plainNote (some ⟨"C", none, "4"⟩) (some 1),
       plainNote (some ⟨"C", none, "4"⟩) (some 1),
       plainNote (some ⟨"C", none, "4"⟩) (some 1)] =
      (["c4", "c", "c"], ⟨none, some "4"⟩) := by
  have h := parse_pitch_sticky_octave_spec.2.2.2 ⟨none, none⟩
    (plainNote (some ⟨"C", none, "4"⟩) (some 1))
    [plainNote (some ⟨"C", none, "4"⟩) (some 1),
     plainNote (some ⟨"C", none, "4"⟩) (some 1)] "4"
    (by intro m hm; fin_cases hm <;> exact ⟨⟨"C", none, "4"⟩, rfl, rfl⟩)
    (by simp)
  simpa [pitch_core, plainNote, accidental, show lower_str "C" = "c" from rfl] using h

/-- C8 counterexample: the program emits no accidental marker for an
explicit alteration of `0` — the token for a C with `<alter>0</alter>`
is identical to the token for a C with no alteration at all, and the
accidental computed for `"0"` equals the one computed for a value
outside the claimed set (`"17"`).  So `0` is not mapped to a natural
suffix: it is treated exactly like absence. -/
theorem accidental_natural_counterexample :
    parse_pitch (plainNote (some ⟨"C", some "0", "4"⟩) (some 1)) ⟨none, none⟩ =
      ("c4", ⟨none, some "4"⟩) ∧
    parse_pitch (plainNote (some ⟨"C", none, "4"⟩) (some 1)) ⟨none, none⟩ =
      ("c4", ⟨none, some "4"⟩) ∧
    accidental (some "0") = accidental (some "17") := by
  refine ⟨by decide, by decide, by decide⟩

/-- C8 (amended): alterations `-2`, `-1`, `1`, `2` map to the suffixes
`bb`, `b`, `#`, `x` (double-flat, flat, sharp, double-sharp); an
alteration of `0`, an absent alteration, or any other value yields no
accidental suffix; and the rendered pitch token is the case-folded step
followed by that accidental (followed by the octave when it is
emitted). -/
theorem accidental_mapping_spec :
    accidental (some "-2") = "bb" ∧ accidental (some "-1") = "b" ∧
    accidental (some "1") = "#" ∧ accidental (some "2") = "x" ∧
    accidental none = "" ∧ accidental (some "0") = "" ∧
    (∀ s : String, s ∉ (["-2", "-1", "1", "2"] : List String) → accidental (some s) = "") ∧
    (∀ (n : Note) (p : Pitch) (st : TenutoState), n.pitch = some p →
      (parse_pitch n st).1 = lower_str p.step ++ accidental p.alter ++
        (if st.last_octave = some p.octave then "" else p.octave)) := by
  refine ⟨rfl, rfl, rfl, rfl, rfl, rfl, ?_, ?_⟩
  · intro s hs
    simp only [List.mem_cons, List.not_mem_nil, or_false, not_or] at hs
    obtain ⟨h1, h2, h3, h4⟩ := hs
    simp [accidental, h1, h2, h3, h4]
  · intro n p st hp
    unfold parse_pitch
    rw [hp]
    by_cases ho : st.last_octave = some p.octave <;> simp [ho]

/-- Witness for C8's amended claim at concrete inputs. -/
theorem accidental_mapping_spec_witness :
    accidental (some "3") = "" ∧
    (parse_pitch (plainNote (some ⟨"E", some "1", "5"⟩) (some 1)) ⟨none, some "5"⟩).1 =
      "e#" := by
  constructor
  · exact accidental_mapping_spec.2.2.2.2.2.2.1 "3" (by decide)
  · have h := accidental_mapping_spec.2.2.2.2.2.2.2
      (plainNote (some ⟨"E", some "1", "5"⟩) (some 1)) ⟨"E", some "1", "5"⟩
      ⟨none, some "5"⟩ rfl
    simpa using h

/-- C4: the duration quantizer is total — absent ticks and a zero scale
fall back to the quarter-note symbol, each exact table ratio maps to
its symbol, and any off-table ratio falls back to the quarter-note
symbol (never an error). -/
theorem duration_quantizer_spec :
    (∀ div : Int, calculate_tenuto_duration div none = ":4") ∧
    (∀ t : Int, calculate_tenuto_duration 0 (some t) = ":4") ∧
    (∀ (div t : Int), div ≠ 0 → (t : ℚ) / (div : ℚ) = 4 →
      calculate_tenuto_duration div (some t) = ":1") ∧
    (∀ (div t : Int), div ≠ 0 → (t : ℚ) / (div : ℚ) = 3 →
      calculate_tenuto_duration div (some t) = ":2.") ∧
    (∀ (div t : Int), div ≠ 0 → (t : ℚ) / (div : ℚ) = 2 →
      calculate_tenuto_duration div (some t) = ":2") ∧
    (∀ (div t : Int), div ≠ 0 → (t : ℚ) / (div : ℚ) = 3/2 →
      calculate_tenuto_duration div (some t) = ":4.") ∧
    (∀ (div t : Int), div ≠ 0 → (t : ℚ) / (div : ℚ) = 1 →
      calculate_tenuto_duration div (some t) = ":4") ∧
    (∀ (div t : Int), div ≠ 0 → (t : ℚ) / (div : ℚ) = 3/4 →
      calculate_tenuto_duration div (some t) = ":8.") ∧
    (∀ (div t : Int), div ≠ 0 → (t : ℚ) / (div : ℚ) = 1/2 →
      calculate_tenuto_duration div (some t) = ":8") ∧
    (∀ (div t : Int), div ≠ 0 → (t : ℚ) / (div : ℚ) = 3/8 →
      calculate_tenuto_duration div (some t) = ":16.") ∧
    (∀ (div t : Int), div ≠ 0 → (t : ℚ) / (div : ℚ) = 1/4 →
      calculate_tenuto_duration div (some t) = ":16") ∧
    (∀ (div t : Int), div ≠ 0 → (t : ℚ) / (div : ℚ) = 1/8 →
      calculate_tenuto_duration div (some t) = ":32") ∧
    (∀ (div t : Int), div ≠ 0 →
      (t : ℚ) / (div : ℚ) ∉ ([4, 3, 2, 3/2, 1, 3/4, 1/2, 3/8, 1/4, 1/8] : List ℚ) →
      calculate_tenuto_duration div (some t) = ":4") := by
  refine ⟨fun _ => rfl, fun t => by simp [calculate_tenuto_duration],
    ?_, ?_, ?_, ?_, ?_, ?_, ?_, ?_, ?_, ?_, ?_⟩ <;>
    intro div t hdiv hq <;>
    simp only [calculate_tenuto_duration] <;>
    rw [if_neg hdiv] <;>
    first
    | (simp only [hq]; norm_num)
    | (simp only [List.mem_cons, List.not_mem_nil, or_false, not_or] at hq
       obtain ⟨q1, q2, q3, q4, q5, q6, q7, q8, q9, q10⟩ := hq
       simp only [one_div] at q7 q9 q10
       simp [q1, q2, q3, q4, q5, q6, q7, q8, q9, q10])

/-- Witness for C4: 3 ticks at scale 2 is exactly 1.5 quarters (dotted
quarter); 7 ticks at scale 16 is 0.4375 quarters, which is off-table
and falls back to the quarter-note symbol. -/
theorem duration_quantizer_spec_witness :
    calculate_tenuto_duration 2 (some 3) = ":4." ∧
    calculate_tenuto_duration 16 (some 7) = ":4" := by
  constructor
  · exact duration_quantizer_spec.2.2.2.2.2.1 2 3 (by norm_num) (by norm_num)
  · exact duration_quantizer_spec.2.2.2.2.2.2.2.2.2.2.2.2 16 7 (by norm_num)
      (by norm_num)

theorem takeWhile_all_append {α : Type} (p : α → Bool) (l1 l2 : List α)
    (h1 : ∀ m ∈ l1, p m = true) (h2 : ∀ m, l2.head? = some m → p m = false) :
    (l1 ++ l2).takeWhile p = l1 := by
  induction l1 with
  | nil =>
    cases l2 with
    | nil => rfl
    | cons m t => simp [List.takeWhile_cons, h2 m rfl]
  | cons a l1 ih =>
    simp [List.takeWhile_cons, h1 a (by simp), ih (fun m hm => h1 m (by simp [hm]))]

theorem dropWhile_all_append {α : Type} (p : α → Bool) (l1 l2 : List α)
    (h1 : ∀ m ∈ l1, p m = true) (h2 : ∀ m, l2.head? = some m → p m = false) :
    (l1 ++ l2).dropWhile p = l2 := by
  induction l1 with
  | nil =>
    cases l2 with
    | nil => rfl
    | cons m t => simp [List.dropWhile_cons, h2 m rfl]
  | cons a l1 ih =>
    simp only [List.cons_append, List.dropWhile_cons, h1 a (by simp)]
    exact ih (fun m hm => h1 m (by simp [hm]))

/-- C1: processing a note followed by a maximal run of chord-marked
notes consumes the whole cluster as one event — the emitted token is
the cluster's event token, the cursor resumes right after the cluster,
and exactly one token is emitted for it; when the cluster has more than
one member the token is a single bracketed token containing the
members' pitch renders in cluster order with rest markers dropped,
followed by the sticky duration suffix computed from the head note's
duration only and the head note's articulations. -/
theorem chord_grouping_spec (div : Int) (st : TenutoState) (n : Note)
    (ctail rest : List Note)
    (hc : ∀ m ∈ ctail, m.chord = true)
    (hr : ∀ m, rest.head? = some m → m.chord = false) :
    process_notes div st (n :: (ctail ++ rest)) =
      ((event_token div st n ctail).1 ::
         (process_notes div (event_token div st n ctail).2 rest).1,
       (process_notes div (event_token div st n ctail).2 rest).2) ∧
    (ctail ≠ [] →
      (event_token div st n ctail).1 =
        "[" ++ String.intercalate " "
            ((parse_pitches st (n :: ctail)).1.filter (fun p => p ≠ "r")) ++ "]" ++
          (if (parse_pitches st (n :: ctail)).2.last_duration =
              some (calculate_tenuto_duration div n.duration) then ""
           else calculate_tenuto_duration div n.duration) ++
          articulation_suffix n) ∧
    (process_notes div st (n :: (ctail ++ rest))).1.length =
      1 + (process_notes div (event_token div st n ctail).2 rest).1.length := by
  have hmain : process_notes div st (n :: (ctail ++ rest)) =
      ((event_token div st n ctail).1 ::
         (process_notes div (event_token div st n ctail).2 rest).1,
       (process_notes div (event_token div st n ctail).2 rest).2) := by
    rw [process_notes]
    rw [takeWhile_all_append _ ctail rest hc hr, dropWhile_all_append _ ctail rest hc hr]
  refine ⟨hmain, ?_, ?_⟩
  · intro hne
    have hE : ctail.isEmpty = false := by
      cases ctail with
      | nil => exact absurd rfl hne
      | cons a t => rfl
    simp only [event_token, dur_stage, cluster_pitch, hE, Bool.false_eq_true, if_false]
    by_cases hd : (parse_pitches st (n :: ctail)).2.last_duration =
        some (calculate_tenuto_duration div n.duration) <;>
      simp [hd, String.append_assoc]
  · rw [hmain]
    simp [Nat.add_comm]

/-- Witness for C1: a cluster head with two chord-marked members and a
following plain note — one bracketed three-pitch token is emitted and
the cursor advances past all three. -/
theorem chord_grouping_spec_witness :
    process_notes 1 ⟨none, none⟩
      [plainNote (some ⟨"C", none, "4"⟩) (some 1),
       chordNote (some ⟨"E", some "1", "4"⟩) (some 1),
       chordNote (some ⟨"G", none, "4"⟩) (some 1),
       plainNote (some ⟨"C", none, "4"⟩) (some 1)] =
      (["[c4 e# g]:4", "c"], ⟨some ":4", some "4"⟩) := by
  have h := (chord_grouping_spec 1 ⟨none, none⟩
    (plainNote (some ⟨"C", none, "4"⟩) (some 1))
    [chordNote (some ⟨"E", some "1", "4"⟩) (some 1),
     chordNote (some ⟨"G", none, "4"⟩) (some 1)]
    [plainNote (some ⟨"C", none, "4"⟩) (some 1)]
    (by intro m hm; fin_cases hm <;> rfl)
    (by intro m hm; simp at hm; subst hm; rfl)).1
  rw [show ([chordNote (some ⟨"E", some "1", "4"⟩) (some 1),
       chordNote (some ⟨"G", none, "4"⟩) (some 1)] ++
       [plainNote (some ⟨"C", none, "4"⟩) (some 1)]) =
      [chordNote (some ⟨"E", some "1", "4"⟩) (some 1),
       chordNote (some ⟨"G", none, "4"⟩) (some 1),
       plainNote (some ⟨"C", none, "4"⟩) (some 1)] from rfl] at h
  rw [h]
  norm_num [event_token, dur_stage, cluster_pitch, parse_pitches, parse_pitch, process_notes, plainNote,
    chordNote, accidental, articulation_suffix, calculate_tenuto_duration, lower_str]
  decide

theorem cluster_pitch_last_duration (st : TenutoState) (n : Note) (ctail : List Note) :
    (cluster_pitch st n ctail).2.last_duration = st.last_duration := by
  unfold cluster_pitch
  by_cases h : ctail.isEmpty <;>
    simp [h, parse_pitch_last_duration, parse_pitches_last_duration]

theorem parse_pitch_irrel_duration (n : Note) (st : TenutoState) (x : Option String) :
    parse_pitch n { st with last_duration := x } =
      ((parse_pitch n st).1, { (parse_pitch n st).2 with last_duration := x }) := by
  unfold parse_pitch
  cases n.pitch with
  | none => rfl
  | some p => by_cases ho : st.last_octave = some p.octave <;> simp [ho]

theorem parse_pitches_irrel_duration (ns : List Note) (st : TenutoState) (x : Option String) :
    parse_pitches { st with last_duration := x } ns =
      ((parse_pitches st ns).1, { (parse_pitches st ns).2 with last_duration := x }) := by
  induction ns generalizing st with
  | nil => rfl
  | cons n ns ih =>
    simp only [parse_pitches, parse_pitch_irrel_duration, ih]

/-- When the context already holds the common quantized duration, a run
of plain (non-chord) notes of that duration emits no duration suffixes:
the tokens are just the pitch renders plus articulations, and the
context evolves exactly as the pitch renderer drives it. -/
theorem process_notes_same_duration (div : Int) (d : String) :
    ∀ (ns : List Note) (st : TenutoState),
    (∀ m ∈ ns, m.chord = false) →
    (∀ m ∈ ns, calculate_tenuto_duration div m.duration = d) →
    st.last_duration = some d →
    process_notes div st ns =
      (List.zipWith (fun t m => t ++ articulation_suffix m) (parse_pitches st ns).1 ns,
       (parse_pitches st ns).2) := by
  intro ns
  induction ns with
  | nil => intro st _ _ _; rw [process_notes]; rfl
  | cons m ms ih =>
    intro st hch hd hld
    have htw : ms.takeWhile (fun x => x.chord) = [] := by
      have := takeWhile_all_append (fun x => x.chord) [] ms (by simp)
        (fun x hx => hch x (by
          cases ms with
          | nil => simp at hx
          | cons a t =>
            simp only [List.head?_cons, Option.some.injEq] at hx
            simp [hx]))
      simpa using this
    have hdw : ms.dropWhile (fun x => x.chord) = ms := by
      have := dropWhile_all_append (fun x => x.chord) [] ms (by simp)
        (fun x hx => hch x (by
          cases ms with
          | nil => simp at hx
          | cons a t =>
            simp only [List.head?_cons, Option.some.injEq] at hx
            simp [hx]))
      simpa using this
    rw [process_notes, htw, hdw]
    have hev : event_token div st m [] = ((parse_pitch m st).1 ++ articulation_suffix m,
        (parse_pitch m st).2) := by
      simp only [event_token, dur_stage, cluster_pitch, List.isEmpty_nil, if_true]
      rw [if_pos (by rw [parse_pitch_last_duration, hld, hd m (by simp)])]
    rw [hev]
    rw [ih (parse_pitch m st).2 (fun x hx => hch x (by simp [hx]))
      (fun x hx => hd x (by simp [hx]))
      (by rw [parse_pitch_last_duration, hld])]
    simp [parse_pitches]

/-- C3: after any event (single note, rest, or chord cluster) the voice
context's last-written duration equals the event's quantized duration;
the event's token carries a duration suffix exactly when the quantized
duration differs from the context's previous last-written duration; and
hence across a run of consecutive same-duration events only the first
token carries the duration suffix. -/
theorem duration_sticky_spec :
    (∀ (div : Int) (st : TenutoState) (n : Note) (ctail : List Note),
      (event_token div st n ctail).2.last_duration =
        some (calculate_tenuto_duration div n.duration)) ∧
    (∀ (div : Int) (st : TenutoState) (n : Note) (ctail : List Note),
      st.last_duration = some (calculate_tenuto_duration div n.duration) →
      (event_token div st n ctail).1 =
        (cluster_pitch st n ctail).1 ++ articulation_suffix n) ∧
    (∀ (div : Int) (st : TenutoState) (n : Note) (ctail : List Note),
      st.last_duration ≠ some (calculate_tenuto_duration div n.duration) →
      (event_token div st n ctail).1 =
        (cluster_pitch st n ctail).1 ++ calculate_tenuto_duration div n.duration ++
          articulation_suffix n) ∧
    (∀ (div : Int) (st : TenutoState) (n : Note) (ns : List Note) (d : String),
      (∀ m ∈ n :: ns, m.chord = false) →
      (∀ m ∈ n :: ns, calculate_tenuto_duration div m.duration = d) →
      st.last_duration ≠ some d →
      (process_notes div st (n :: ns)).1 =
        ((parse_pitch n st).1 ++ d ++ articulation_suffix n) ::
          List.zipWith (fun t m => t ++ articulation_suffix m)
            (parse_pitches (parse_pitch n st).2 ns).1 ns) := by
  have hpost : ∀ (div : Int) (st : TenutoState) (n : Note) (ctail : List Note),
      (event_token div st n ctail).2.last_duration =
        some (calculate_tenuto_duration div n.duration) := by
    intro div st n ctail
    simp only [event_token, dur_stage]
    by_cases h : (cluster_pitch st n ctail).2.last_duration =
        some (calculate_tenuto_duration div n.duration) <;> simp [h]
  refine ⟨hpost, ?_, ?_, ?_⟩
  · intro div st n ctail h
    simp only [event_token, dur_stage]
    rw [if_pos (by rw [cluster_pitch_last_duration]; exact h)]
  · intro div st n ctail h
    simp only [event_token, dur_stage]
    rw [if_neg (by rw [cluster_pitch_last_duration]; exact h)]
  · intro div st n ns d hch hd hld
    have htw : ns.takeWhile (fun x => x.chord) = [] := by
      have := takeWhile_all_append (fun x => x.chord) [] ns (by simp)
        (fun x hx => hch x (by
          cases ns with
          | nil => simp at hx
          | cons a t =>
            simp only [List.head?_cons, Option.some.injEq] at hx
            simp [hx]))
      simpa using this
    have hdw : ns.dropWhile (fun x => x.chord) = ns := by
      have := dropWhile_all_append (fun x => x.chord) [] ns (by simp)
        (fun x hx => hch x (by
          cases ns with
          | nil => simp at hx
          | cons a t =>
            simp only [List.head?_cons, Option.some.injEq] at hx
            simp [hx]))
      simpa using this
    rw [process_notes, htw, hdw]
    have hev : event_token div st n [] =
        ((parse_pitch n st).1 ++ d ++ articulation_suffix n,
         { (parse_pitch n st).2 with last_duration := some d }) := by
      simp only [event_token, dur_stage, cluster_pitch, List.isEmpty_nil, if_true]
      rw [hd n (by simp)]
      rw [if_neg (by rw [parse_pitch_last_duration]; exact hld)]
    rw [hev]
    rw [process_notes_same_duration div d ns _ (fun x hx => hch x (by simp [hx]))
      (fun x hx => hd x (by simp [hx])) rfl]
    rw [parse_pitches_irrel_duration]

/-- Witness for C3: three quarter notes from an empty context — only
the first token carries the `:4` duration suffix. -/
theorem duration_sticky_spec_witness :
    (process_notes 1 ⟨none, none⟩
      [plainNote (some ⟨"C", none, "4"⟩) (some 1),
       plainNote (some ⟨"C", none, "4"⟩) (some 1),
       plainNote (some ⟨"D", none, "5"⟩) (some 1)]).1 =
      ["c4:4", "c", "d5"] := by
  have h := duration_sticky_spec.2.2.2 1 ⟨none, none⟩
    (plainNote (some ⟨"C", none, "4"⟩) (some 1))
    [plainNote (some ⟨"C", none, "4"⟩) (some 1),
     plainNote (some ⟨"D", none, "5"⟩) (some 1)] ":4"
    (by intro m hm; fin_cases hm <;> rfl)
    (by intro m hm; fin_cases hm <;> norm_num [calculate_tenuto_duration, plainNote])
    (by simp)
  rw [h]
  simp [parse_pitches, parse_pitch, plainNote, accidental, articulation_suffix, lower_str]

/-- Elements that are not notes and carry no dynamics are skipped with
no effect on the voice context or the pending buffer. -/
theorem process_elems_skip_inert (div : Int) (st : TenutoState) (pending : List String)
    (mid l : List MeasureElem)
    (hmid : ∀ e ∈ mid, e = MeasureElem.other ∨ e = MeasureElem.direction none) :
    process_elems div st pending (mid ++ l) = process_elems div st pending l := by
  induction mid with
  | nil => rfl
  | cons e mid ih =>
    rcases hmid e (by simp) with h | h <;> subst h <;>
      simp only [List.cons_append] <;>
      rw [process_elems] <;>
      exact ih (fun x hx => hmid x (by simp [hx]))

/-- Unfolding of the note case of the dynamics-aware grouper: the
pending suffixes are applied to the event's pre-articulation token and
the recursion continues with an empty buffer. -/
theorem process_elems_note (div : Int) (st : TenutoState) (pending : List String)
    (n : Note) (rest : List MeasureElem) :
    process_elems div st pending (MeasureElem.note n :: rest) =
      ((pending.foldl (fun t s => t ++ "." ++ s)
          (dur_stage div st n ((rest.takeWhile isChordMember).filterMap elemNote)).1 ++
          articulation_suffix n) ::
        (process_elems div
          (dur_stage div st n ((rest.takeWhile isChordMember).filterMap elemNote)).2 []
          (rest.dropWhile isChordMember)).1,
       (process_elems div
          (dur_stage div st n ((rest.takeWhile isChordMember).filterMap elemNote)).2 []
          (rest.dropWhile isChordMember)).2) := by
  rw [process_elems]

/-- C5: a dynamics marking occurring before a note — with only inert
elements (non-notes without dynamics) in between — contributes exactly
one `.symbol` suffix to that immediately following note's token, placed
before the articulation suffixes; every later token and the final
voice context are exactly those of the run without the dynamics
marking, so the suffix is never applied to a later note and the buffer
is cleared after attachment. -/
theorem dynamics_attachment_spec (div : Int) (st : TenutoState) (d : String)
    (mid : List MeasureElem) (n : Note) (rest : List MeasureElem)
    (hmid : ∀ e ∈ mid, e = MeasureElem.other ∨ e = MeasureElem.direction none) :
    ∃ stem tail st2,
      process_elems div st [] (mid ++ MeasureElem.note n :: rest) =
        ((stem ++ articulation_suffix n) :: tail, st2) ∧
      process_elems div st []
          (MeasureElem.direction (some d) :: (mid ++ MeasureElem.note n :: rest)) =
        ((stem ++ "." ++ d ++ articulation_suffix n) :: tail, st2) := by
  refine ⟨(dur_stage div st n ((rest.takeWhile isChordMember).filterMap elemNote)).1,
    (process_elems div
      (dur_stage div st n ((rest.takeWhile isChordMember).filterMap elemNote)).2 []
      (rest.dropWhile isChordMember)).1,
    (process_elems div
      (dur_stage div st n ((rest.takeWhile isChordMember).filterMap elemNote)).2 []
      (rest.dropWhile isChordMember)).2, ?_, ?_⟩
  · rw [process_elems_skip_inert div st [] mid _ hmid, process_elems_note]
    simp
  · rw [process_elems]
    simp only [List.nil_append]
    rw [process_elems_skip_inert div st [d] mid _ hmid, process_elems_note]
    simp

/-- Witness for C5: a forte marking, a print element, then two quarter
notes — the suffix `.f` lands on the first note only and the second
note's token is unchanged. -/
theorem dynamics_attachment_spec_witness :
    process_elems 1 ⟨none, none⟩ []
      [MeasureElem.direction (some "f"), MeasureElem.other,
       MeasureElem.note (plainNote (some ⟨"C", none, "4"⟩) (some 1)),
       MeasureElem.note (plainNote (some ⟨"D", none, "4"⟩) (some 1))] =
      (["c4:4.f", "d"], ⟨some ":4", some "4"⟩) := by
  obtain ⟨stem, tail, st2, h1, h2⟩ := dynamics_attachment_spec 1 ⟨none, none⟩ "f"
    [MeasureElem.other] (plainNote (some ⟨"C", none, "4"⟩) (some 1))
    [MeasureElem.note (plainNote (some ⟨"D", none, "4"⟩) (some 1))]
    (by intro e he; fin_cases he; exact Or.inl rfl)
  simp only [List.cons_append, List.nil_append] at h1 h2
  have hc : calculate_tenuto_duration 1 (some 1) = ":4" := by
    norm_num [calculate_tenuto_duration]
  have heval : process_elems 1 (⟨none, none⟩ : TenutoState) []
      [MeasureElem.other,
       MeasureElem.note (plainNote (some ⟨"C", none, "4"⟩) (some 1)),
       MeasureElem.note (plainNote (some ⟨"D", none, "4"⟩) (some 1))] =
      (["c4:4", "d"], ⟨some ":4", some "4"⟩) := by
    simp [process_elems, dur_stage, cluster_pitch, parse_pitch, plainNote, accidental,
      articulation_suffix, lower_str, isChordMember, elemNote, hc]
  rw [h1] at heval
  injection heval with hf hs
  injection hf with hh ht
  simp only [articulation_suffix, plainNote] at hh
  rw [h2, ht, hs]
  simp only [articulation_suffix, plainNote]
  simp at hh ⊢
  rw [hh]
  decide

/-- Whether a measure's attribute block redefines the global
divisions-per-quarter scale. -/
def sets_divisions (m : Measure) : Bool :=
  match m.attributes with
  | none => false
  | some a => a.divisions.isSome

theorem process_attributes_no_divisions (d : Int) (m : Measure)
    (h : sets_divisions m = false) : (process_attributes d m).2 = d := by
  unfold sets_divisions at h
  unfold process_attributes
  cases hm : m.attributes with
  | none => rfl
  | some a =>
    rw [hm] at h
    have h' : a.divisions.isSome = false := by simpa using h
    cases ha : a.divisions with
    | none => simp [ha]
    | some v => rw [ha] at h'; simp at h'

theorem process_measures_divisions (tid : String) (ms : List Measure) :
    ∀ (i : Nat) (d : Int) (s : TenutoState) (pv : Pivot),
    (process_measures tid i d s pv ms).1 =
      ms.foldl (fun d m => (process_attributes d m).2) d := by
  induction ms with
  | nil => intro i d s pv; rfl
  | cons m ms ih =>
    intro i d s pv
    simp only [process_measures, process_measure, List.foldl_cons]
    exact ih _ _ _ _

/-- C6: the divisions scale is one global value threaded in traversal
order — processing a list of parts folds left over it, so every part
processed after a redefinition starts from the redefined value (second
conjunct: a part's final scale is the fold of its measures' attribute
blocks over the incoming global value); a part that never redefines it
leaves it unchanged (third conjunct); and a later-traversed part with
no attribute block of its own quantizes its notes with exactly the
global value left behind by the parts traversed before it (fourth
conjunct), whatever its id or position in the instrument table. -/
theorem global_divisions_spec :
    (∀ (st : LogicState) (ps qs : List BodyPart),
      parse_logic st (ps ++ qs) = parse_logic (parse_logic st ps) qs) ∧
    (∀ (st : LogicState) (p : BodyPart) (info : PartInfo),
      getKey p.id st.parts = some info →
      (parse_part st p).divisions =
        p.measures.foldl (fun d m => (process_attributes d m).2) st.divisions) ∧
    (∀ (st : LogicState) (p : BodyPart),
      (∀ m ∈ p.measures, sets_divisions m = false) →
      (parse_part st p).divisions = st.divisions) ∧
    (∀ (st : LogicState) (q : BodyPart) (info : PartInfo) (notes : List Note),
      getKey q.id st.parts = some info →
      q.measures = [{ attributes := none, notes := notes }] →
      (parse_part st q).pivot =
        pivotSet st.pivot 1 info.tenuto_id (process_notes st.divisions info.state notes).1) := by
  have hfold : ∀ (ms : List Measure) (d : Int),
      (∀ m ∈ ms, sets_divisions m = false) →
      ms.foldl (fun d m => (process_attributes d m).2) d = d := by
    intro ms
    induction ms with
    | nil => intro d _; rfl
    | cons m ms ih =>
      intro d h
      simp only [List.foldl_cons]
      rw [process_attributes_no_divisions d m (h m (by simp))]
      exact ih d (fun x hx => h x (by simp [hx]))
  have hdiv : ∀ (st : LogicState) (p : BodyPart) (info : PartInfo),
      getKey p.id st.parts = some info →
      (parse_part st p).divisions =
        p.measures.foldl (fun d m => (process_attributes d m).2) st.divisions := by
    intro st p info h
    simp only [parse_part, h]
    exact process_measures_divisions _ _ _ _ _ _
  refine ⟨?_, hdiv, ?_, ?_⟩
  · intro st ps qs
    simp [parse_logic, List.foldl_append]
  · intro st p h
    cases hk : getKey p.id st.parts with
    | none => simp [parse_part, hk]
    | some info => rw [hdiv st p info hk]; exact hfold _ _ h
  · intro st q info notes h hm
    simp only [parse_part, h, hm]
    simp only [process_measures, process_measure, process_attributes, List.isEmpty_nil,
      if_true]

/-- Witness for C6: part `P1` redefines divisions from 1 to 2 in its
only measure; part `P2`, traversed later, has no attribute block and
its 2-tick note is quantized as one quarter under the new scale. -/
theorem global_divisions_spec_witness :
    parse_logic
      ⟨1, parse_structure [⟨"P1", some "A"⟩, ⟨"P2", some "B"⟩], []⟩
      [⟨"P1", [{ attributes := some ⟨some 2, none⟩, notes := [] }]⟩,
       ⟨"P2", [{ attributes := none,
                 notes := [plainNote (some ⟨"C", none, "4"⟩) (some 2)] }]⟩] =
      ⟨2, [("P1", ⟨"a", "A", ⟨none, none⟩⟩), ("P2", ⟨"b", "B", ⟨some ":4", some "4"⟩⟩)],
       [(1, [("a", []), ("b", ["c4:4"])])]⟩ := by
  have happ := global_divisions_spec.1
    ⟨1, parse_structure [⟨"P1", some "A"⟩, ⟨"P2", some "B"⟩], []⟩
    [⟨"P1", [{ attributes := some ⟨some 2, none⟩, notes := [] }]⟩]
    [⟨"P2", [{ attributes := none,
               notes := [plainNote (some ⟨"C", none, "4"⟩) (some 2)] }]⟩]
  rw [show ([⟨"P1", [{ attributes := some ⟨some 2, none⟩, notes := [] }]⟩] ++
      [⟨"P2", [{ attributes := none,
                 notes := [plainNote (some ⟨"C", none, "4"⟩) (some 2)] }]⟩] :
      List BodyPart) =
      [⟨"P1", [{ attributes := some ⟨some 2, none⟩, notes := [] }]⟩,
       ⟨"P2", [{ attributes := none,
                 notes := [plainNote (some ⟨"C", none, "4"⟩) (some 2)] }]⟩] from rfl] at happ
  rw [happ]
  have h1 : parse_logic
      ⟨1, parse_structure [⟨"P1", some "A"⟩, ⟨"P2", some "B"⟩], []⟩
      [⟨"P1", [{ attributes := some ⟨some 2, none⟩, notes := [] }]⟩] =
      ⟨2, [("P1", ⟨"a", "A", ⟨none, none⟩⟩), ("P2", ⟨"b", "B", ⟨none, none⟩⟩)],
       [(1, [("a", [])])]⟩ := by
    simp [parse_logic, parse_part, parse_structure, register_part, sanitize_slug, fresh_slug, lower_str,
      getKey, setKey, process_measures, process_measure, process_attributes, process_notes,
      pivotSet]
  rw [h1]
  have h4 := global_divisions_spec.2.2.2
    ⟨2, [("P1", ⟨"a", "A", ⟨none, none⟩⟩), ("P2", ⟨"b", "B", ⟨none, none⟩⟩)],
     [(1, [("a", [])])]⟩
    ⟨"P2", [{ attributes := none,
              notes := [plainNote (some ⟨"C", none, "4"⟩) (some 2)] }]⟩
    ⟨"b", "B", ⟨none, none⟩⟩
    [plainNote (some ⟨"C", none, "4"⟩) (some 2)]
    (by simp [getKey]) rfl
  have hc : calculate_tenuto_duration 2 (some 2) = ":4" := by
    norm_num [calculate_tenuto_duration]
  have hnotes : process_notes 2 (⟨none, none⟩ : TenutoState)
      [plainNote (some ⟨"C", none, "4"⟩) (some 2)] = (["c4:4"], ⟨some ":4", some "4"⟩) := by
    simp [process_notes, event_token, dur_stage, cluster_pitch, parse_pitch, plainNote,
      accidental, articulation_suffix, lower_str, hc]
  simp [parse_logic, parse_part, getKey, setKey, process_measures, process_measure,
    process_attributes, hnotes, pivotSet]

theorem getKey_setKey_ne {α β : Type} [DecidableEq α] (k k' : α) (v : β)
    (l : List (α × β)) (h : k ≠ k') :
    getKey k (setKey k' v l) = getKey k l := by
  induction l with
  | nil => simp [setKey, getKey, Ne.symm h]
  | cons e l ih =>
    by_cases he : e.1 = k'
    · simp [setKey, he, getKey, Ne.symm h]
    · cases e with
      | mk a b => simp only [setKey, getKey, he, if_false]; rw [ih]

/-- A part id absent from `parts_info` stays absent through the
processing of any other part. -/
theorem parse_part_preserves_missing (st : LogicState) (q : BodyPart) (k : String)
    (h : getKey k st.parts = none) : getKey k (parse_part st q).parts = none := by
  unfold parse_part
  cases hq : getKey q.id st.parts with
  | none => exact h
  | some info =>
    have hne : k ≠ q.id := by
      intro he
      rw [he, hq] at h
      exact Option.noConfusion h
    simp only
    rw [getKey_setKey_ne k q.id _ _ hne]
    exact h

/-- C10: a body part whose id is not registered in the instrument table
is skipped entirely — processing it leaves the converter state (global
scale, voice contexts, pivot table) untouched, and the result of
processing any part list containing it equals the result of processing
the list with that part removed. -/
theorem unknown_part_skipped_spec :
    (∀ (st : LogicState) (p : BodyPart),
      getKey p.id st.parts = none → parse_part st p = st) ∧
    (∀ (st : LogicState) (pre post : List BodyPart) (p : BodyPart),
      getKey p.id st.parts = none →
      parse_logic st (pre ++ p :: post) = parse_logic st (pre ++ post)) := by
  have hskip : ∀ (st : LogicState) (p : BodyPart),
      getKey p.id st.parts = none → parse_part st p = st := by
    intro st p h
    unfold parse_part
    rw [h]
  refine ⟨hskip, ?_⟩
  intro st pre post p h
  induction pre generalizing st with
  | nil =>
    simp only [List.nil_append, parse_logic, List.foldl_cons]
    rw [hskip st p h]
  | cons b pre ih =>
    simp only [List.cons_append, parse_logic, List.foldl_cons]
    exact ih (parse_part st b) (parse_part_preserves_missing st b p.id h)

/-- A body part with an id (`P9`) unregistered in the instrument
table, used as C10's concrete input. -/
def strayPart : BodyPart :=
  { id := "P9",
    measures := [{ attributes := some ⟨some 7, none⟩,
                   notes := [plainNote (some ⟨"C", none, "4"⟩) (some 1)] }] }

/-- Witness for C10: processing `strayPart` leaves the state unchanged,
also when it sits inside a part list. -/
theorem unknown_part_skipped_spec_witness :
    parse_part ⟨1, [("P1", ⟨"a", "A", ⟨none, none⟩⟩)], []⟩ strayPart =
      ⟨1, [("P1", ⟨"a", "A", ⟨none, none⟩⟩)], []⟩ ∧
    parse_logic ⟨1, [("P1", ⟨"a", "A", ⟨none, none⟩⟩)], []⟩ [strayPart] =
      parse_logic ⟨1, [("P1", ⟨"a", "A", ⟨none, none⟩⟩)], []⟩ [] := by
  constructor
  · exact unknown_part_skipped_spec.1 _ _ (by simp [getKey, strayPart])
  · exact unknown_part_skipped_spec.2 _ [] [] strayPart (by simp [getKey, strayPart])

theorem length_filterMap_eq_countP {α β : Type} (f : α → Option β) (l : List α) :
    (l.filterMap f).length = l.countP (fun a => (f a).isSome) := by
  induction l with
  | nil => rfl
  | cons a l ih =>
    cases hf : f a with
    | none => simp [List.filterMap_cons, hf, List.countP_cons, ih]
    | some b => simp [List.filterMap_cons, hf, List.countP_cons, ih]

/-- C7 counterexample: a known part with a measure containing no notes
stores an empty token sequence under its rendering id, and the renderer
still emits an instrument line for it (`    flut:  |`) — refuting "emit
a line only if that instrument has at least one token recorded for this
measure": the emission test is key presence, not token count. -/
theorem empty_tokens_line_counterexample :
    getKey 1 (parse_logic ⟨1, parse_structure [⟨"P1", some "Flute"⟩], []⟩
        [⟨"P1", [{ attributes := none, notes := [] }]⟩]).pivot =
      some [("flut", [])] ∧
    generate_tenuto [] (parse_structure [⟨"P1", some "Flute"⟩])
        (parse_logic ⟨1, parse_structure [⟨"P1", some "Flute"⟩], []⟩
          [⟨"P1", [{ attributes := none, notes := [] }]⟩]).pivot =
      String.intercalate "\n"
        ["tenuto \x7b", "  meta \x7b", "    tenuto_version: \"2.0\",", "  \x7d", "",
         "  %% Instrument Definitions", "  def flut \"Flute\" style=standard", "",
         "  %% Score Logic", "  measure 1 \x7b", "    flut:  |", "  \x7d", "", "\x7d"] := by
  have hlogic : (parse_logic ⟨1, parse_structure [⟨"P1", some "Flute"⟩], []⟩
      [⟨"P1", [{ attributes := none, notes := [] }]⟩]).pivot = [(1, [("flut", [])])] := by
    simp [parse_logic, parse_part, parse_structure, register_part, sanitize_slug, fresh_slug, lower_str,
      getKey, setKey, process_measures, process_measure, process_attributes, process_notes,
      pivotSet]
  constructor
  · rw [hlogic]; rfl
  · rw [hlogic]
    simp [generate_tenuto, meta_lines, instrument_lines, measure_block, parse_structure,
      register_part, sanitize_slug, fresh_slug, lower_str, getKey, setKey, List.insertionSort,
      List.orderedInsert]
    decide

/-- C7 (amended): the renderer emits the measure blocks in strictly
ascending numeric order of measure index (given the distinct keys the
pivot accumulator produces) — the emitted sequence is a sorted
permutation of the pivot's keys; within a block it visits instruments
in the instrument table's insertion order, emitting the line
`"    <id>: <tokens joined by single spaces> |"` for every instrument
whose id has an entry recorded for this measure (third conjunct), one
line per such instrument and none for the others (fourth conjunct —
note an entry may hold an empty token sequence, see the
counterexample); each block opens with its measure header line. -/
theorem generate_tenuto_spec :
    (∀ (gm : List (String × String)) (parts : List (String × PartInfo)) (pivot : Pivot),
      (pivot.map Prod.fst).Nodup →
      ∃ sm : List Nat, sm.Perm (pivot.map Prod.fst) ∧ sm.Sorted (· < ·) ∧
        generate_tenuto gm parts pivot =
          String.intercalate "\n"
            (["tenuto \x7b", "  meta \x7b", "    tenuto_version: \"2.0\","] ++
             meta_lines gm ++
             ["  \x7d", "", "  %% Instrument Definitions"] ++
             instrument_lines parts ++
             ["", "  %% Score Logic"] ++
             sm.flatMap (measure_block parts pivot) ++
             ["\x7d"])) ∧
    (∀ (parts : List (String × PartInfo)) (pivot : Pivot) (midx : Nat)
       (data : MeasureData) (q : String × PartInfo) (toks : List String),
      getKey midx pivot = some data → q ∈ parts →
      getKey q.2.tenuto_id data = some toks →
      ("    " ++ q.2.tenuto_id ++ ": " ++ String.intercalate " " toks ++ " |") ∈
        measure_block parts pivot midx) ∧
    (∀ (parts : List (String × PartInfo)) (pivot : Pivot) (midx : Nat)
       (data : MeasureData),
      getKey midx pivot = some data →
      (measure_block parts pivot midx).length =
        3 + (match getKey "__meta__" data with | some _ => 1 | none => 0) +
          parts.countP (fun q => (getKey q.2.tenuto_id data).isSome)) ∧
    (∀ (parts : List (String × PartInfo)) (pivot : Pivot) (midx : Nat),
      (measure_block parts pivot midx).head? =
        some ("  measure " ++ Nat.repr midx ++ " \x7b")) := by
  refine ⟨?_, ?_, ?_, ?_⟩
  · intro gm parts pivot hnodup
    refine ⟨List.insertionSort (· ≤ ·) (pivot.map Prod.fst),
      List.perm_insertionSort _ _, ?_, rfl⟩
    exact List.Sorted.lt_of_le
      (List.sorted_insertionSort (· ≤ ·) (pivot.map Prod.fst))
      (((List.perm_insertionSort (· ≤ ·) (pivot.map Prod.fst))).nodup_iff.mpr hnodup)
  · intro parts pivot midx data q toks hm hq hk
    simp only [measure_block, hm, Option.getD_some]
    refine List.mem_cons_of_mem _ (List.mem_append_left _ (List.mem_append_right _ ?_))
    exact List.mem_filterMap.mpr ⟨q, hq, by rw [hk]⟩
  · intro parts pivot midx data hm
    simp only [measure_block, hm, Option.getD_some, List.length_cons, List.length_append,
      length_filterMap_eq_countP]
    have hcount : parts.countP
        (fun q => (match getKey q.2.tenuto_id data with
          | some toks => some ("    " ++ q.2.tenuto_id ++ ": " ++
              String.intercalate " " toks ++ " |")
          | none => none).isSome) =
        parts.countP (fun q => (getKey q.2.tenuto_id data).isSome) := by
      apply List.countP_congr
      intro q _
      cases getKey q.2.tenuto_id data <;> simp
    rw [hcount]
    cases getKey "__meta__" data <;> simp [List.length_cons] <;> omega
  · intro parts pivot midx
    rfl

/-- Witness for C7 at a concrete state: a two-measure pivot stored out
of numeric order, one instrument; the instrument line appears in its
measure's block, a block with an empty entry still has exactly one
instrument line (length 4 = header + one line + closer + blank), and
the emitted measure order is a sorted permutation of the keys. -/
theorem generate_tenuto_spec_witness :
    ("    a: x |") ∈ measure_block [("P1", ⟨"a", "A", ⟨none, none⟩⟩)]
      [(2, [("a", ["x"])]), (1, [("a", [])])] 2 ∧
    (measure_block [("P1", ⟨"a", "A", ⟨none, none⟩⟩)]
      [(2, [("a", ["x"])]), (1, [("a", [])])] 1).length = 4 ∧
    (∃ sm : List Nat, sm.Perm [2, 1] ∧ sm.Sorted (· < ·)) := by
  refine ⟨?_, ?_, ?_⟩
  · have h := generate_tenuto_spec.2.1 [("P1", ⟨"a", "A", ⟨none, none⟩⟩)]
      [(2, [("a", ["x"])]), (1, [("a", [])])] 2 [("a", ["x"])]
      ("P1", ⟨"a", "A", ⟨none, none⟩⟩) ["x"] (by decide) (by simp) (by decide)
    rw [show ("    " ++ ("P1", (⟨"a", "A", ⟨none, none⟩⟩ : PartInfo)).2.tenuto_id ++ ": " ++
      String.intercalate " " ["x"] ++ " |") = "    a: x |" from by decide] at h
    exact h
  · have h := generate_tenuto_spec.2.2.1 [("P1", ⟨"a", "A", ⟨none, none⟩⟩)]
      [(2, [("a", ["x"])]), (1, [("a", [])])] 1 [("a", [])] (by decide)
    rw [h]
    decide
  · obtain ⟨sm, hperm, hsort, _⟩ := generate_tenuto_spec.1 []
      [("P1", ⟨"a", "A", ⟨none, none⟩⟩)] [(2, [("a", ["x"])]), (1, [("a", [])])] (by decide)
    exact ⟨sm, hperm, hsort⟩

/-- The decimal digit characters of `n`, most significant first — the
value `Nat.toDigitsCore` computes for base 10, as a fuel-free
specification. -/
def decimalChars (n : Nat) : List Char :=
  if n < 10 then [Nat.digitChar n]
  else decimalChars (n / 10) ++ [Nat.digitChar (n % 10)]
termination_by n
decreasing_by exact Nat.div_lt_self (by omega) (by omega)

theorem toDigitsCore_eq_decimalChars :
    ∀ (f n : Nat) (acc : List Char), n < f →
    Nat.toDigitsCore 10 f n acc = decimalChars n ++ acc := by
  intro f
  induction f with
  | zero => intro n acc h; omega
  | succ f ih =>
    intro n acc h
    simp only [Nat.toDigitsCore]
    by_cases h0 : n / 10 = 0
    · rw [if_pos h0, decimalChars]
      have hn : n < 10 := by omega
      rw [if_pos hn, Nat.mod_eq_of_lt hn]
      rfl
    · rw [if_neg h0]
      have h1 : n / 10 < f := by
        have h2 : n / 10 < n := Nat.div_lt_self (by omega) (by omega)
        omega
      rw [ih (n / 10) _ h1]
      have hn : ¬ n < 10 := by omega
      conv_rhs => rw [decimalChars]
      rw [if_neg hn]
      simp

theorem repr_eq_decimalChars (n : Nat) : Nat.repr n = (decimalChars n).asString := by
  unfold Nat.repr Nat.toDigits
  rw [toDigitsCore_eq_decimalChars (n + 1) n [] (Nat.lt_succ_self n), List.append_nil]

theorem digitChar_toNat (k : Nat) (h : k < 10) : (Nat.digitChar k).toNat = 48 + k := by
  interval_cases k <;> rfl

/-- Reading the decimal digits back as a number. -/
def charsVal (l : List Char) : Nat := l.foldl (fun a c => 10 * a + (c.toNat - 48)) 0

theorem charsVal_decimalChars : ∀ n, charsVal (decimalChars n) = n := by
  intro n
  induction n using Nat.strong_induction_on with
  | _ n ih =>
    rw [decimalChars]
    by_cases h : n < 10
    · rw [if_pos h]
      simp [charsVal, digitChar_toNat n h]
    · rw [if_neg h]
      unfold charsVal
      rw [List.foldl_append]
      have hrec := ih (n / 10) (Nat.div_lt_self (by omega) (by omega))
      unfold charsVal at hrec
      rw [hrec]
      simp only [List.foldl_cons, List.foldl_nil]
      rw [digitChar_toNat (n % 10) (Nat.mod_lt n (by omega))]
      omega

theorem repr_injective (m n : Nat) (h : Nat.repr m = Nat.repr n) : m = n := by
  rw [repr_eq_decimalChars, repr_eq_decimalChars] at h
  have hl : decimalChars m = decimalChars n := by
    have hd := congrArg String.data h
    simpa [List.asString] using hd
  have hv := congrArg charsVal hl
  rwa [charsVal_decimalChars, charsVal_decimalChars] at hv

theorem digitChar_alnum (k : Nat) (h : k < 10) : (Nat.digitChar k).isAlphanum = true := by
  interval_cases k <;> rfl

theorem decimalChars_alnum : ∀ n, ∀ c ∈ decimalChars n, c.isAlphanum = true := by
  intro n
  induction n using Nat.strong_induction_on with
  | _ n ih =>
    intro c hc
    rw [decimalChars] at hc
    by_cases h : n < 10
    · rw [if_pos h] at hc
      simp only [List.mem_singleton] at hc
      subst hc
      exact digitChar_alnum n h
    · rw [if_neg h] at hc
      rcases List.mem_append.mp hc with h1 | h1
      · exact ih (n / 10) (Nat.div_lt_self (by omega) (by omega)) c h1
      · simp only [List.mem_singleton] at h1
        subst h1
        exact digitChar_alnum (n % 10) (Nat.mod_lt n (by omega))

theorem countP_mono_of_imp {α : Type} (p q : α → Bool)
    (hmono : ∀ x, q x = true → p x = true) :
    ∀ l : List α, l.countP q ≤ l.countP p := by
  intro l
  induction l with
  | nil => simp
  | cons a t ih =>
    rw [List.countP_cons, List.countP_cons]
    by_cases hq : q a = true
    · rw [hq, hmono a hq]
      omega
    · rw [Bool.not_eq_true] at hq
      rw [hq]
      by_cases hp : p a = true <;> simp [hp] <;> omega

theorem countP_lt_of_witness {α : Type} (p q : α → Bool)
    (hmono : ∀ x, q x = true → p x = true) (s : α) :
    ∀ l : List α, s ∈ l → p s = true → q s = false →
    l.countP q < l.countP p := by
  intro l
  induction l with
  | nil => intro hs; simp at hs
  | cons a t ih =>
    intro hs hps hqs
    rw [List.countP_cons, List.countP_cons]
    rcases List.mem_cons.mp hs with h | h
    · subst h
      rw [hps, hqs]
      have := countP_mono_of_imp p q hmono t
      simp
      omega
    · have := ih h hps hqs
      by_cases hq : q a = true
      · rw [hq, hmono a hq]
        omega
      · rw [Bool.not_eq_true] at hq
        rw [hq]
        by_cases hp : p a = true <;> simp [hp] <;> omega

/-- The candidate identifiers the collision loop would try from
`count` on, with `fuel` attempts. -/
def slug_cands (base : String) (count fuel : Nat) : List String :=
  (List.range fuel).map (fun i => base ++ Nat.repr (count + i))

theorem append_repr_inj (base : String) (i j : Nat)
    (h : base ++ Nat.repr i = base ++ Nat.repr j) : i = j := by
  apply repr_injective
  have hd := congrArg String.data h
  simp only [String.data_append] at hd
  have hl := List.append_cancel_left hd
  cases hri : Nat.repr i with
  | mk l =>
    cases hrj : Nat.repr j with
    | mk l' =>
      rw [hri, hrj] at hl
      simp only at hl
      rw [hl]

theorem mem_slug_cands (base : String) (count fuel : Nat) (x : String) :
    x ∈ slug_cands base count fuel ↔ ∃ i, i < fuel ∧ x = base ++ Nat.repr (count + i) := by
  unfold slug_cands
  simp only [List.mem_map, List.mem_range]
  constructor
  · rintro ⟨i, hi, rfl⟩; exact ⟨i, hi, rfl⟩
  · rintro ⟨i, hi, rfl⟩; exact ⟨i, hi, rfl⟩

theorem fresh_slug_aux_not_mem (taken : List String) (base : String) :
    ∀ (fuel count : Nat),
    taken.countP (fun s => decide (s ∈ slug_cands base count fuel)) < fuel →
    fresh_slug_aux taken base count fuel ∉ taken := by
  intro fuel
  induction fuel with
  | zero => intro count h; omega
  | succ fuel ih =>
    intro count h
    simp only [fresh_slug_aux]
    by_cases hmem : (base ++ Nat.repr count) ∈ taken
    · rw [if_pos hmem]
      apply ih (count + 1)
      have hstrict : taken.countP (fun s => decide (s ∈ slug_cands base (count + 1) fuel)) <
          taken.countP (fun s => decide (s ∈ slug_cands base count (fuel + 1))) := by
        apply countP_lt_of_witness _ _ ?_ (base ++ Nat.repr count) taken hmem ?_ ?_
        · intro x hx
          rw [decide_eq_true_iff] at hx ⊢
          obtain ⟨i, hi, rfl⟩ := (mem_slug_cands _ _ _ _).mp hx
          exact (mem_slug_cands _ _ _ _).mpr ⟨i + 1, by omega, by ring_nf⟩
        · rw [decide_eq_true_iff]
          exact (mem_slug_cands _ _ _ _).mpr ⟨0, by omega, by simp⟩
        · rw [decide_eq_false_iff_not]
          intro hx
          obtain ⟨i, hi, he⟩ := (mem_slug_cands _ _ _ _).mp hx
          have := append_repr_inj base count (count + 1 + i) he
          omega
      omega
    · rw [if_neg hmem]
      exact hmem

theorem fresh_slug_not_mem (taken : List String) (base : String) :
    fresh_slug taken base ∉ taken := by
  unfold fresh_slug
  by_cases h : base ∈ taken
  · rw [if_pos h]
    apply fresh_slug_aux_not_mem
    have := List.countP_le_length
      (p := fun s => decide (s ∈ slug_cands base 1 (taken.length + 1))) (l := taken)
    omega
  · rw [if_neg h]
    exact h

/-- Whether every character of a string is alphanumeric.  Every
generated rendering identifier satisfies this; the reserved pivot key
`"__meta__"` does not (underscores), so no generated identifier can
collide with it. -/
def allAlnum (s : String) : Bool := s.data.all Char.isAlphanum

theorem allAlnum_append (a b : String) :
    allAlnum (a ++ b) = (allAlnum a && allAlnum b) := by
  simp [allAlnum, String.data_append]

theorem repr_allAlnum (k : Nat) : allAlnum (Nat.repr k) = true := by
  rw [repr_eq_decimalChars]
  simp only [allAlnum, List.asString, List.all_eq_true]
  exact decimalChars_alnum k

theorem sanitize_slug_allAlnum (name : String) : allAlnum (sanitize_slug name) = true := by
  unfold sanitize_slug
  by_cases h : String.mk (((lower_str name).data.filter Char.isAlphanum).take 4) = ""
  · rw [if_pos h]
    rfl
  · rw [if_neg h]
    simp only [allAlnum, List.all_eq_true]
    intro c hc
    have hc' := List.mem_of_mem_take hc
    exact List.of_mem_filter hc'

theorem fresh_slug_aux_allAlnum (taken : List String) (base : String)
    (h : allAlnum base = true) :
    ∀ (fuel count : Nat), allAlnum (fresh_slug_aux taken base count fuel) = true := by
  intro fuel
  induction fuel with
  | zero => intro count; exact h
  | succ fuel ih =>
    intro count
    simp only [fresh_slug_aux]
    by_cases hmem : (base ++ Nat.repr count) ∈ taken
    · rw [if_pos hmem]
      exact ih (count + 1)
    · rw [if_neg hmem]
      rw [allAlnum_append, h, repr_allAlnum]
      rfl

theorem fresh_slug_allAlnum (taken : List String) (base : String)
    (h : allAlnum base = true) : allAlnum (fresh_slug taken base) = true := by
  unfold fresh_slug
  by_cases hmem : base ∈ taken
  · rw [if_pos hmem]
    exact fresh_slug_aux_allAlnum taken base h _ _
  · rw [if_neg hmem]
    exact h

theorem meta_sentinel_not_allAlnum : allAlnum "__meta__" = false := by decide

/-- The rendering identifiers of a `parts_info` table, in insertion
order. -/
def tenuto_ids (parts : List (String × PartInfo)) : List String :=
  parts.map (fun q => q.2.tenuto_id)

theorem mem_setKey {α β : Type} [DecidableEq α] (k : α) (v : β) :
    ∀ (l : List (α × β)) (e : α × β), e ∈ setKey k v l → e = (k, v) ∨ e ∈ l := by
  intro l
  induction l with
  | nil =>
    intro e he
    simp only [setKey, List.mem_singleton] at he
    exact Or.inl he
  | cons a t ih =>
    intro e he
    obtain ⟨a1, a2⟩ := a
    simp only [setKey] at he
    by_cases ha : a1 = k
    · rw [if_pos ha] at he
      rcases List.mem_cons.mp he with h | h
      · exact Or.inl h
      · exact Or.inr (List.mem_cons_of_mem _ h)
    · rw [if_neg ha] at he
      rcases List.mem_cons.mp he with h | h
      · subst h
        exact Or.inr (List.mem_cons_self _ _)
      · rcases ih e h with h1 | h1
        · exact Or.inl h1
        · exact Or.inr (List.mem_cons_of_mem _ h1)

theorem mem_tenuto_ids_setKey (k : String) (v : PartInfo)
    (l : List (String × PartInfo)) (x : String)
    (hx : x ∈ tenuto_ids (setKey k v l)) : x = v.tenuto_id ∨ x ∈ tenuto_ids l := by
  unfold tenuto_ids at *
  obtain ⟨e, he, rfl⟩ := List.mem_map.mp hx
  rcases mem_setKey k v l e he with h | h
  · subst h
    exact Or.inl rfl
  · exact Or.inr (List.mem_map_of_mem _ h)

theorem tenuto_ids_nodup_setKey (k : String) (v : PartInfo) :
    ∀ (l : List (String × PartInfo)), (tenuto_ids l).Nodup → v.tenuto_id ∉ tenuto_ids l →
    (tenuto_ids (setKey k v l)).Nodup := by
  intro l
  induction l with
  | nil =>
    intro _ _
    simp [setKey, tenuto_ids]
  | cons a t ih =>
    intro hnd hv
    obtain ⟨a1, a2⟩ := a
    unfold tenuto_ids at *
    simp only [List.map_cons, List.nodup_cons, List.mem_cons, not_or] at hnd hv
    simp only [setKey]
    by_cases ha : a1 = k
    · rw [if_pos ha]
      simp only [List.map_cons, List.nodup_cons]
      exact ⟨hv.2, hnd.2⟩
    · rw [if_neg ha]
      simp only [List.map_cons, List.nodup_cons]
      constructor
      · intro hmem
        rcases mem_tenuto_ids_setKey k v t _ hmem with h1 | h1
        · exact hv.1 h1.symm
        · exact hnd.1 h1
      · exact ih hnd.2 hv.2

theorem register_part_invariant (acc : List (String × PartInfo)) (sp : ScorePart)
    (hnd : (tenuto_ids acc).Nodup) (hal : ∀ x ∈ tenuto_ids acc, allAlnum x = true) :
    (tenuto_ids (register_part acc sp)).Nodup ∧
    (∀ x ∈ tenuto_ids (register_part acc sp), allAlnum x = true) := by
  unfold register_part
  constructor
  · exact tenuto_ids_nodup_setKey _ _ _ hnd
      (fresh_slug_not_mem (tenuto_ids acc) (sanitize_slug (sp.part_name.getD "Instrument")))
  · intro x hx
    rcases mem_tenuto_ids_setKey _ _ _ x hx with h | h
    · rw [h]
      exact fresh_slug_allAlnum _ _ (sanitize_slug_allAlnum _)
    · exact hal x h

theorem parse_structure_invariant_aux :
    ∀ (sps : List ScorePart) (acc : List (String × PartInfo)),
    (tenuto_ids acc).Nodup → (∀ x ∈ tenuto_ids acc, allAlnum x = true) →
    (tenuto_ids (sps.foldl register_part acc)).Nodup ∧
    (∀ x ∈ tenuto_ids (sps.foldl register_part acc), allAlnum x = true) := by
  intro sps
  induction sps with
  | nil => intro acc h1 h2; exact ⟨h1, h2⟩
  | cons sp sps ih =>
    intro acc h1 h2
    simp only [List.foldl_cons]
    have h := register_part_invariant acc sp h1 h2
    exact ih _ h.1 h.2

/-- Every inner key of the pivot table is the meta sentinel or one of
the given rendering identifiers. -/
def pivot_keys_ok (ids : List String) (pivot : Pivot) : Prop :=
  ∀ e ∈ pivot, ∀ kv ∈ e.2, kv.1 = "__meta__" ∨ kv.1 ∈ ids

theorem pivot_keys_ok_pivotSet (ids : List String) (k : String) (v : List String)
    (hk : k = "__meta__" ∨ k ∈ ids) :
    ∀ (pivot : Pivot) (m : Nat),
    pivot_keys_ok ids pivot → pivot_keys_ok ids (pivotSet pivot m k v) := by
  intro pivot
  induction pivot with
  | nil =>
    intro m _ e he kv hkv
    simp only [pivotSet, List.mem_singleton] at he
    subst he
    simp only [List.mem_singleton] at hkv
    subst hkv
    exact hk
  | cons p rest ih =>
    intro m h e he kv hkv
    obtain ⟨m', data⟩ := p
    simp only [pivotSet] at he
    by_cases hm : m' = m
    · rw [if_pos hm] at he
      rcases List.mem_cons.mp he with h1 | h1
      · subst h1
        rcases mem_setKey k v data kv hkv with h2 | h2
        · rw [h2]
          exact hk
        · exact h (m', data) (List.mem_cons_self _ _) kv h2
      · exact h e (List.mem_cons_of_mem _ h1) kv hkv
    · rw [if_neg hm] at he
      rcases List.mem_cons.mp he with h1 | h1
      · subst h1
        exact h (m', data) (List.mem_cons_self _ _) kv hkv
      · exact ih m (fun e' he' kv' hkv' => h e' (List.mem_cons_of_mem _ he') kv' hkv')
          e h1 kv hkv

theorem process_measure_keys_ok (ids : List String) (tid : String) (midx : Nat)
    (div : Int) (st : TenutoState) (pv : Pivot) (m : Measure)
    (htid : tid ∈ ids) (h : pivot_keys_ok ids pv) :
    pivot_keys_ok ids (process_measure tid midx div st pv m).2.2 := by
  unfold process_measure
  apply pivot_keys_ok_pivotSet ids tid _ (Or.inr htid)
  by_cases hmeta : (process_attributes div m).1.isEmpty
  · simpa [hmeta] using h
  · simp only [hmeta, Bool.false_eq_true, if_false]
    exact pivot_keys_ok_pivotSet ids "__meta__" _ (Or.inl rfl) _ _ h

theorem process_measures_keys_ok (ids : List String) (tid : String)
    (htid : tid ∈ ids) :
    ∀ (ms : List Measure) (midx : Nat) (div : Int) (st : TenutoState) (pv : Pivot),
    pivot_keys_ok ids pv →
    pivot_keys_ok ids (process_measures tid midx div st pv ms).2.2 := by
  intro ms
  induction ms with
  | nil => intro midx div st pv h; exact h
  | cons m ms ih =>
    intro midx div st pv h
    simp only [process_measures]
    exact ih _ _ _ _ (process_measure_keys_ok ids tid midx div st pv m htid h)

theorem getKey_mem_tenuto_ids :
    ∀ (parts : List (String × PartInfo)) (pid : String) (info : PartInfo),
    getKey pid parts = some info → info.tenuto_id ∈ tenuto_ids parts := by
  intro parts
  induction parts with
  | nil => intro pid info h; simp [getKey] at h
  | cons a t ih =>
    intro pid info h
    obtain ⟨a1, a2⟩ := a
    simp only [getKey] at h
    by_cases ha : a1 = pid
    · rw [if_pos ha] at h
      injection h with h
      subst h
      simp [tenuto_ids]
    · rw [if_neg ha] at h
      unfold tenuto_ids
      simp only [List.map_cons, List.mem_cons]
      exact Or.inr (ih pid info h)

theorem tenuto_ids_setKey_update :
    ∀ (parts : List (String × PartInfo)) (pid : String) (info : PartInfo) (s : TenutoState),
    getKey pid parts = some info →
    tenuto_ids (setKey pid { info with state := s } parts) = tenuto_ids parts := by
  intro parts
  induction parts with
  | nil => intro pid info s h; simp [getKey] at h
  | cons a t ih =>
    intro pid info s h
    obtain ⟨a1, a2⟩ := a
    simp only [getKey] at h
    simp only [setKey, tenuto_ids]
    by_cases ha : a1 = pid
    · rw [if_pos ha] at h
      injection h with h
      subst h
      rw [if_pos ha]
      simp
    · rw [if_neg ha] at h
      rw [if_neg ha]
      simp only [List.map_cons]
      have := ih pid info s h
      unfold tenuto_ids at this
      rw [this]

theorem parse_part_keys_ok (st : LogicState) (p : BodyPart)
    (h : pivot_keys_ok (tenuto_ids st.parts) st.pivot) :
    pivot_keys_ok (tenuto_ids st.parts) (parse_part st p).pivot ∧
    tenuto_ids (parse_part st p).parts = tenuto_ids st.parts := by
  unfold parse_part
  cases hk : getKey p.id st.parts with
  | none => exact ⟨h, rfl⟩
  | some info =>
    constructor
    · exact process_measures_keys_ok _ _ (getKey_mem_tenuto_ids _ _ _ hk) _ _ _ _ _ h
    · exact tenuto_ids_setKey_update _ _ _ _ hk

theorem parse_logic_keys_ok :
    ∀ (body : List BodyPart) (st : LogicState),
    pivot_keys_ok (tenuto_ids st.parts) st.pivot →
    pivot_keys_ok (tenuto_ids st.parts) (parse_logic st body).pivot := by
  intro body
  induction body with
  | nil => intro st h; exact h
  | cons b body ih =>
    intro st h
    simp only [parse_logic, List.foldl_cons]
    have hpp := parse_part_keys_ok st b h
    have hres := ih (parse_part st b) (by rw [hpp.2]; exact hpp.1)
    rw [hpp.2] at hres
    exact hres

/-- C9: in every pivot state reachable from an empty pivot, each inner
key is either a generated rendering identifier of the instrument table
or the reserved `"__meta__"` sentinel; the generated identifiers are
pairwise distinct and consist only of alphanumeric characters, while
the sentinel does not — so no generated identifier can equal it. -/
theorem pivot_key_invariant_spec (sps : List ScorePart) (d : Int) (body : List BodyPart) :
    (tenuto_ids (parse_structure sps)).Nodup ∧
    (∀ x ∈ tenuto_ids (parse_structure sps), allAlnum x = true) ∧
    allAlnum "__meta__" = false ∧
    "__meta__" ∉ tenuto_ids (parse_structure sps) ∧
    (∀ e ∈ (parse_logic ⟨d, parse_structure sps, []⟩ body).pivot,
      ∀ kv ∈ e.2, kv.1 = "__meta__" ∨ kv.1 ∈ tenuto_ids (parse_structure sps)) := by
  have hmain := parse_structure_invariant_aux sps []
    (by simp [tenuto_ids]) (by simp [tenuto_ids])
  refine ⟨hmain.1, hmain.2, meta_sentinel_not_allAlnum, ?_, ?_⟩
  · intro hmem
    have hx := hmain.2 _ hmem
    rw [meta_sentinel_not_allAlnum] at hx
    exact Bool.noConfusion hx
  · exact parse_logic_keys_ok body ⟨d, parse_structure sps, []⟩ (by intro e he; simp at he)

/-- Witness for C9: two instruments with the same display name
"Violin I" produce the distinct identifiers `viol` and `viol1` (the
second with a numeric suffix), and a processed score's pivot keys stay
inside the identifier set plus the sentinel. -/
theorem pivot_key_invariant_spec_witness :
    tenuto_ids (parse_structure [⟨"P1", some "Violin I"⟩, ⟨"P2", some "Violin I"⟩]) =
      ["viol", "viol1"] ∧
    (tenuto_ids (parse_structure [⟨"P1", some "Violin I"⟩, ⟨"P2", some "Violin I"⟩])).Nodup ∧
    "__meta__" ∉
      tenuto_ids (parse_structure [⟨"P1", some "Violin I"⟩, ⟨"P2", some "Violin I"⟩]) := by
  have h := pivot_key_invariant_spec [⟨"P1", some "Violin I"⟩, ⟨"P2", some "Violin I"⟩] 1 []
  exact ⟨by decide, h.1, h.2.2.2.1⟩
